import Mathlib

/-!
Verification of the policy-decision engine specification and of the
kernel-version management utility shipped in this repository.

Part 1 models the handler-chain dispatch engine, the wire protocol and the
workflow-state subsystem.  The source of that engine is not part of this
repository snapshot (only the specification describes it), so those
definitions are modelled from the specification text, as marked on each
definition.

Part 2 embeds `files/usr/local/bin/manage-kernel-versions.py` directly from
its source: `KernelVersion.parse`, the grouping by minor version, and the
`manage_kernels` locking logic, with subprocess results (rpm/dnf/uname)
supplied as explicit inputs and the lock/unlock side effects reified as an
action trace.
-/

/-- Modelled from the spec: the decision verdict, one of allow | deny | ask.
The dispatch engine's source is missing from the repository snapshot. -/
inductive DecisionKind
  | allow
  | deny
  | ask
deriving DecidableEq, Repr

/-- Modelled from the spec: a Decision is the verdict plus optional
reason / context / guidance strings (spec section 3). -/
structure Decision where
  decision : DecisionKind
  reason : Option String := none
  context : Option String := none
  guidance : Option String := none
deriving DecidableEq, Repr

/-- Modelled from the spec: the default decision used when no handler
matches - allow with no reason, no context, no guidance. -/
def Decision.allowDefault : Decision :=
  { decision := DecisionKind.allow, reason := none, context := none, guidance := none }

/-- Modelled from the spec: a handler is a name, an integer priority
(lower runs earlier) and the capability pair predicate/action. -/
structure Handler (α : Type) where
  name : String
  priority : Int
  predicate : α → Bool
  action : α → Decision

/-- Modelled from the spec: a registered handler together with its
registration index (order of registration, used as sort tie-breaker). -/
structure Entry (α : Type) where
  handler : Handler α
  regIndex : Nat

/-- The two-key sort key of a registered handler: (priority, registration index). -/
def entryKey {α : Type} (e : Entry α) : Int × Nat :=
  (e.handler.priority, e.regIndex)

/-- Lexicographic order on (priority, registration index) keys, as a Bool. -/
def keyLeB (p q : Int × Nat) : Bool :=
  decide (p.1 < q.1) || (decide (p.1 = q.1) && decide (p.2 ≤ q.2))

/-- The sort relation on registered handlers. -/
def entryLe {α : Type} (a b : Entry α) : Prop :=
  keyLeB (entryKey a) (entryKey b) = true

instance entryLeDec {α : Type} : DecidableRel (@entryLe α) :=
  fun a b => Bool.decEq (keyLeB (entryKey a) (entryKey b)) true

instance entryLeTotal {α : Type} : IsTotal (Entry α) entryLe :=
  ⟨by
    intro a b
    simp only [entryLe, keyLeB, Bool.or_eq_true, Bool.and_eq_true, decide_eq_true_eq]
    omega⟩

instance entryLeTrans {α : Type} : IsTrans (Entry α) entryLe :=
  ⟨by
    intro a b c
    simp only [entryLe, keyLeB, Bool.or_eq_true, Bool.and_eq_true, decide_eq_true_eq]
    omega⟩

/-- Modelled from the spec: the dispatcher owns the ordered handler list for
one event category plus the next registration index. -/
structure Dispatcher (α : Type) where
  entries : List (Entry α)
  nextIndex : Nat

/-- A dispatcher with no registered handlers. -/
def Dispatcher.empty {α : Type} : Dispatcher α := ⟨[], 0⟩

/-- Modelled from the spec: register appends the handler (stamping the next
registration index) and re-sorts by (priority, registration_index) ascending. -/
def Dispatcher.register {α : Type} (d : Dispatcher α) (h : Handler α) : Dispatcher α :=
  ⟨List.insertionSort entryLe (d.entries ++ [⟨h, d.nextIndex⟩]), d.nextIndex + 1⟩

/-- Register a list of handlers in order, starting from the empty dispatcher. -/
def registerAll {α : Type} (hs : List (Handler α)) : Dispatcher α :=
  hs.foldl Dispatcher.register Dispatcher.empty

/-- Modelled from the spec: chain-of-responsibility dispatch over an entry
list - call each predicate in order, return the first matching handler's
action result, or the default allow when none matches. -/
def dispatchList {α : Type} : List (Entry α) → α → Decision
  | [], _ => Decision.allowDefault
  | e :: rest, ev =>
    if e.handler.predicate ev then e.handler.action ev else dispatchList rest ev

/-- Instrumentation of dispatch: the registration indices of the handlers
whose predicates are evaluated during a dispatch (in evaluation order). -/
def probedIdxs {α : Type} : List (Entry α) → α → List Nat
  | [], _ => []
  | e :: rest, ev =>
    if e.handler.predicate ev then [e.regIndex] else e.regIndex :: probedIdxs rest ev

/-- Dispatch an event through a dispatcher. -/
def Dispatcher.dispatch {α : Type} (d : Dispatcher α) (ev : α) : Decision :=
  dispatchList d.entries ev

/-- The registration indices whose predicates a dispatch evaluates. -/
def Dispatcher.probed {α : Type} (d : Dispatcher α) (ev : α) : List Nat :=
  probedIdxs d.entries ev

/-- A concrete never-matching registered handler used to exercise dispatch. -/
def sampleFalseEntry : Entry Nat :=
  ⟨⟨"P", 1, fun _ => false, fun _ => Decision.allowDefault⟩, 5⟩

/-- A concrete always-matching registered handler used to exercise dispatch. -/
def sampleTrueEntry : Entry Nat :=
  ⟨⟨"E", 2, fun _ => true, fun _ => ⟨DecisionKind.deny, some "no", none, none⟩⟩, 6⟩

/-- A concrete action for handler A. -/
def sampleActA : Nat → Decision := fun _ => ⟨DecisionKind.ask, some "A", none, none⟩

/-- A concrete action for handler B. -/
def sampleActB : Nat → Decision := fun _ => Decision.allowDefault

/-- A concrete handler used to exercise registration. -/
def sampleHandler : Handler Nat := ⟨"H", 3, fun _ => true, fun _ => Decision.allowDefault⟩

/-- A concrete registered entry used to exercise the ordering argument. -/
def sampleEntryA : Entry Nat :=
  ⟨⟨"A", 10, fun _ => true, fun _ => Decision.allowDefault⟩, 0⟩

/-- Modelled from the spec: decision wire serialization (spec sections 4.1
and 6).  The payload is the list of fields of the decision envelope; the
empty list is the empty payload.  An allow with no optional fields is the
silent allow; otherwise the envelope names the event category, the decision
value only for deny/ask, the reason only for deny/ask, and context/guidance
whenever present. -/
def serializeDecision (category : String) (d : Decision) : List (String × String) :=
  if d.decision = DecisionKind.allow ∧ d.reason = none ∧ d.context = none ∧ d.guidance = none
  then []
  else
    [("eventCategory", category)]
    ++ (match d.decision with
        | DecisionKind.deny => [("decision", "deny")]
        | DecisionKind.ask => [("decision", "ask")]
        | DecisionKind.allow => [])
    ++ (match d.decision, d.reason with
        | DecisionKind.deny, some r => [("reason", r)]
        | DecisionKind.ask, some r => [("reason", r)]
        | _, _ => [])
    ++ (match d.context with
        | some c => [("additionalContext", c)]
        | none => [])
    ++ (match d.guidance with
        | some g => [("guidance", g)]
        | none => [])

/-- Whether a serialized payload contains a field with the given key. -/
def hasField (fields : List (String × String)) (k : String) : Bool :=
  fields.any (fun p => p.1 == k)

/-- Result of one process-boundary invocation: the payload written to
standard output, the exit code, and whether dispatch was invoked. -/
structure ProcRun where
  payload : List (String × String)
  exitCode : Nat
  dispatched : Bool
deriving DecidableEq, Repr

/-- Modelled from the spec: the process boundary (spec section 4.4) - read
one JSON document from stdin (the JSON parser is abstracted as a function
returning none on malformed input); on parse failure emit the empty payload
and exit successfully without dispatching; otherwise dispatch and serialize.
The exit code is always 0. -/
def runBoundary {α : Type} (parseInput : String → Option α) (d : Dispatcher α)
    (category : String) (input : String) : ProcRun :=
  match parseInput input with
  | none => ⟨[], 0, false⟩
  | some ev => ⟨serializeDecision category (d.dispatch ev), 0, true⟩

/-- Modelled from the spec: the phase component of a workflow state. -/
structure WorkflowPhase where
  current : Nat
  total : Nat
  name : String
  status : String
deriving DecidableEq, Repr

/-- Modelled from the spec: the persisted workflow state record (spec
section 3); created_at is a timestamp. -/
structure WorkflowState where
  workflow : String
  workflow_type : String
  phase : WorkflowPhase
  required_reading : List String
  context : List (String × String)
  key_reminders : List String
  created_at : Nat
deriving DecidableEq, Repr

/-- Modelled from the spec: sanitized workflow name - lowercase, runs of
non-alphanumeric characters collapsed to a single hyphen, length-capped.
The spec does not fix the cap; 64 is used here and no claim depends on it. -/
def sanitizeWorkflowName (s : String) : String :=
  let mapped := s.data.map (fun c => if c.isAlphanum then c.toLower else '-')
  let collapsed :=
    mapped.foldr (fun c acc => if c = '-' ∧ acc.head? = some '-' then acc else c :: acc) []
  String.mk (collapsed.take 64)

/-- The workflow-state store: one record per sanitized-workflow-name
namespace, modelled as an association list keyed by the namespace. -/
abbrev StateStore := List (String × WorkflowState)

/-- Look up the record persisted under a namespace. -/
def lookupRecord : StateStore → String → Option WorkflowState
  | [], _ => none
  | p :: rest, ns => if p.1 = ns then some p.2 else lookupRecord rest ns

/-- Modelled from the spec: snapshot persistence (spec section 4.5) - compute
the sanitized namespace; if a record already exists there, overwrite it in
place copying forward its original created_at; otherwise append a fresh
record stamped with the current time. -/
def snapshotPersist (store : StateStore) (w : WorkflowState) (now : Nat) : StateStore :=
  let ns := sanitizeWorkflowName w.workflow
  match lookupRecord store ns with
  | some old =>
    store.map (fun p => if p.1 = ns then (p.1, { w with created_at := old.created_at }) else p)
  | none => store ++ [(ns, { w with created_at := now })]

/-- A concrete persisted record used to exercise the snapshot logic. -/
def sampleOldRecord : WorkflowState :=
  ⟨"test", "custom", ⟨1, 2, "Design", "in_progress"⟩, ["@a.md"], [], ["r1"], 100⟩

/-- A concrete later workflow state for the same workflow, with different
phase, reading list, reminders and timestamp. -/
def sampleNewState : WorkflowState :=
  ⟨"test", "custom", ⟨2, 2, "Build", "in_progress"⟩, ["@b.md"], [], ["r2"], 999⟩

/-- A persisted record file as seen by the restoration handler: its
modification time and its raw content. -/
structure StoredFile where
  mtime : Nat
  content : String
deriving DecidableEq, Repr

/-- Select the file with the latest modification time. -/
def pickLatest : List StoredFile → Option StoredFile
  | [] => none
  | f :: rest =>
    match pickLatest rest with
    | none => some f
    | some g => some (if f.mtime < g.mtime then g else f)

/-- Modelled from the spec: the guidance message composed by the restoration
handler (spec section 4.6) - workflow name and type, phase, the required
reading list, the key reminders, and the imperative closing section. -/
def composeRestorationMessage (w : WorkflowState) : String :=
  "Workflow: " ++ w.workflow ++ " (" ++ w.workflow_type ++ ")\n"
  ++ "Phase: " ++ toString w.phase.current ++ "/" ++ toString w.phase.total
  ++ " - " ++ w.phase.name ++ " (" ++ w.phase.status ++ ")\n"
  ++ String.join (w.required_reading.map (fun r => r ++ "\n"))
  ++ String.join (w.key_reminders.map (fun r => r ++ "\n"))
  ++ "Read all listed references and confirm understanding before resuming work."

/-- Modelled from the spec: the restoration handler's action (spec section
4.6) - enumerate persisted records; none present yields the default allow;
select the latest-modified record and parse it (the JSON parser is
abstracted as a function returning none on unparsable content); parse
failure also yields the default allow; on success return allow carrying the
composed guidance message. -/
def restoreAction (parseRecord : String → Option WorkflowState)
    (files : List StoredFile) : Decision :=
  match pickLatest files with
  | none => Decision.allowDefault
  | some f =>
    match parseRecord f.content with
    | none => Decision.allowDefault
    | some w =>
      { decision := DecisionKind.allow, reason := none, context := none,
        guidance := some (composeRestorationMessage w) }

/-!
Part 2: embedding of files/usr/local/bin/manage-kernel-versions.py.
-/

/-- A parsed kernel version (the KernelVersion dataclass). -/
structure KernelVersion where
  full_version : String
  major : Nat
  minor : Nat
  patch : Nat
  release : String
deriving DecidableEq, Repr

/-- The first code points of the zero-aligned decades of Unicode general
category Nd (decimal digits), per Unicode 14.0.0 - the table of the
CPython 3.11 build this embedding was checked against; later Unicode
versions add further scripts.  Every Nd character sits in one of these
decades and its decimal value is its offset from the decade start. -/
def ndDecadeStarts : List Nat :=
  [0x30, 0x660, 0x6f0, 0x7c0, 0x966, 0x9e6, 0xa66, 0xae6, 0xb66, 0xbe6,
   0xc66, 0xce6, 0xd66, 0xde6, 0xe50, 0xed0, 0xf20, 0x1040, 0x1090, 0x17e0,
   0x1810, 0x1946, 0x19d0, 0x1a80, 0x1a90, 0x1b50, 0x1bb0, 0x1c40, 0x1c50,
   0xa620, 0xa8d0, 0xa900, 0xa9d0, 0xa9f0, 0xaa50, 0xabf0, 0xff10, 0x104a0,
   0x10d30, 0x11066, 0x110f0, 0x11136, 0x111d0, 0x112f0, 0x11450, 0x114d0,
   0x11650, 0x116c0, 0x11730, 0x118e0, 0x11950, 0x11c50, 0x11d50, 0x11da0,
   0x16a60, 0x16ac0, 0x16b50, 0x1d7ce, 0x1d7d8, 0x1d7e2, 0x1d7ec, 0x1d7f6,
   0x1e140, 0x1e2f0, 0x1e950, 0x1fbf0]

/-- The decimal value of a Unicode decimal digit (category Nd), or none
when the character is not one.  This is what a Python str-pattern \d
matches and what int() assigns to each matched digit. -/
def unicodeDigit? (c : Char) : Option Nat :=
  match ndDecadeStarts.find? (fun z => decide (z ≤ c.toNat ∧ c.toNat < z + 10)) with
  | some z => some (c.toNat - z)
  | none => none

/-- Whether a character is matched by the str-pattern \d: any Unicode
decimal digit (category Nd), not only the ASCII 0-9. -/
def pyIsDigit (c : Char) : Bool :=
  (unicodeDigit? c).isSome

/-- Decimal value of a list of Unicode decimal digit characters (int() on
the digit substrings captured by the version regex; int() accepts any Nd
digits, each contributing its decimal value). -/
def digitsVal (ds : List Char) : Nat :=
  ds.foldl (fun n c => n * 10 + (unicodeDigit? c).getD 0) 0

/-- Matching of the final regex group (.+)$ under Python re semantics: the
dot does not match a newline, and the anchor matches at the end of the
string or just before one final newline.  Returns the captured group. -/
def matchRest (rest : List Char) : Option (List Char) :=
  let body := rest.takeWhile (fun c => c != '\n')
  let after := rest.dropWhile (fun c => c != '\n')
  if body = [] then none
  else if after = [] then some body
  else if after = ['\n'] then some body
  else none

/-- Matching of the version regex ^(\d+)\.(\d+)\.(\d+)-(.+)$ against a
character list, returning the three numeric groups and the release group.
Maximal munch of digits is equivalent to the regex backtracking here since
a literal dot or hyphen never matches a digit; \d matches any Unicode
decimal digit (category Nd), per Python str-pattern semantics. -/
def parseChars (cs : List Char) : Option (Nat × Nat × Nat × List Char) :=
  let d1 := cs.takeWhile pyIsDigit
  let r1 := cs.dropWhile pyIsDigit
  let d2 := r1.tail.takeWhile pyIsDigit
  let r3 := r1.tail.dropWhile pyIsDigit
  let d3 := r3.tail.takeWhile pyIsDigit
  let r5 := r3.tail.dropWhile pyIsDigit
  if d1 = [] then none
  else if ¬ r1.head? = some '.' then none
  else if d2 = [] then none
  else if ¬ r3.head? = some '.' then none
  else if d3 = [] then none
  else if ¬ r5.head? = some '-' then none
  else (matchRest r5.tail).map (fun rel => (digitsVal d1, digitsVal d2, digitsVal d3, rel))

/-- `KernelVersion.parse`: parse a version string of the expected format
X.Y.Z-RELEASE via the regex, raising ValueError (modelled as Except.error)
when the regex does not match. -/
def KernelVersion.parse (s : String) : Except String KernelVersion :=
  match parseChars s.data with
  | some (a, b, c, rel) =>
    Except.ok { full_version := s, major := a, minor := b, patch := c,
                release := String.mk rel }
  | none => Except.error ("Invalid kernel version format: " ++ s)

/-- The comparison key of `KernelVersion.__lt__`: (major, minor, patch). -/
def KernelVersion.triple (k : KernelVersion) : Nat × Nat × Nat :=
  (k.major, k.minor, k.patch)

/-- Lexicographic (major, minor, patch) ≤, the non-strict companion of
`KernelVersion.__lt__`, as a Bool. -/
def tripleLeB : Nat × Nat × Nat → Nat × Nat × Nat → Bool
  | (a1, a2, a3), (b1, b2, b3) =>
    decide (a1 < b1)
      || (decide (a1 = b1) && (decide (a2 < b2) || (decide (a2 = b2) && decide (a3 ≤ b3))))

/-- The sort relation used by sorted() on kernels (a ≤ b in the
(major, minor, patch) lexicographic order). -/
def kvLe (a b : KernelVersion) : Prop :=
  tripleLeB a.triple b.triple = true

instance kvLeDec : DecidableRel kvLe :=
  fun a b => Bool.decEq (tripleLeB a.triple b.triple) true

instance kvLeTotal : IsTotal KernelVersion kvLe :=
  ⟨by
    intro a b
    simp only [kvLe, KernelVersion.triple, tripleLeB, Bool.or_eq_true, Bool.and_eq_true,
      decide_eq_true_eq]
    omega⟩

instance kvLeTrans : IsTrans KernelVersion kvLe :=
  ⟨by
    intro a b c
    simp only [kvLe, KernelVersion.triple, tripleLeB, Bool.or_eq_true, Bool.and_eq_true,
      decide_eq_true_eq]
    omega⟩

/-- `KernelVersion.__eq__`: equality by full_version. -/
def kvEq (a b : KernelVersion) : Bool :=
  a.full_version == b.full_version

/-- The grouping key used by group_by_minor_version.  The source keys groups
by the string f-string of major.minor and sorts the keys by
tuple(map(int, v.split("."))); both are in bijection with this pair, so the
key is embedded directly as the pair (major, minor). -/
def minorKey (k : KernelVersion) : Nat × Nat :=
  (k.major, k.minor)

/-- Lexicographic ≤ on minor-version keys (the sort key of sorted_minors). -/
def minorLeB : Nat × Nat → Nat × Nat → Bool
  | (a1, a2), (b1, b2) =>
    decide (a1 < b1) || (decide (a1 = b1) && decide (a2 ≤ b2))

/-- The sort relation on minor-version keys. -/
def minorLe (p q : Nat × Nat) : Prop :=
  minorLeB p q = true

instance minorLeDec : DecidableRel minorLe :=
  fun a b => Bool.decEq (minorLeB a b) true

instance minorLeTotal : IsTotal (Nat × Nat) minorLe :=
  ⟨by
    intro a b
    obtain ⟨a1, a2⟩ := a
    obtain ⟨b1, b2⟩ := b
    simp only [minorLe, minorLeB, Bool.or_eq_true, Bool.and_eq_true, decide_eq_true_eq]
    omega⟩

instance minorLeTrans : IsTrans (Nat × Nat) minorLe :=
  ⟨by
    intro a b c
    obtain ⟨a1, a2⟩ := a
    obtain ⟨b1, b2⟩ := b
    obtain ⟨c1, c2⟩ := c
    simp only [minorLe, minorLeB, Bool.or_eq_true, Bool.and_eq_true, decide_eq_true_eq]
    omega⟩

/-- Kernels grouped by minor-version key, preserving first-occurrence key
order (the insertion order of the defaultdict in the source). -/
abbrev MinorGroups := List ((Nat × Nat) × List KernelVersion)

/-- Append a kernel to its group, creating the group at the end when the key
is new (defaultdict(list) behavior of groups[key].append(kernel)). -/
def addToGroup (gs : MinorGroups) (key : Nat × Nat) (k : KernelVersion) : MinorGroups :=
  match gs with
  | [] => [(key, [k])]
  | (k0, g) :: rest =>
    if k0 = key then (k0, g ++ [k]) :: rest else (k0, g) :: addToGroup rest key k

/-- The grouping loop of group_by_minor_version, before the per-group sort. -/
def rawGroups (kernels : List KernelVersion) : MinorGroups :=
  kernels.foldl (fun gs k => addToGroup gs (minorKey k) k) []

/-- `group_by_minor_version`: group kernels by minor version and sort the
kernels within each group. -/
def group_by_minor_version (kernels : List KernelVersion) : MinorGroups :=
  (rawGroups kernels).map (fun p => (p.1, List.insertionSort kvLe p.2))

/-- Lookup of groups[minor] (empty only for a key that is not present,
which the manage loop never does). -/
def lookupGroup : MinorGroups → (Nat × Nat) → List KernelVersion
  | [], _ => []
  | p :: rest, m => if p.1 = m then p.2 else lookupGroup rest m

/-- The keys of a group list. -/
def groupKeys (gs : MinorGroups) : List (Nat × Nat) :=
  gs.map Prod.fst

/-- sorted_minors: the distinct minor-version keys in ascending order. -/
def sortedMinors (kernels : List KernelVersion) : List (Nat × Nat) :=
  List.insertionSort minorLe (groupKeys (group_by_minor_version kernels))

/-- latest_minor = sorted_minors[-1]. -/
def latestMinor (kernels : List KernelVersion) : Nat × Nat :=
  (sortedMinors kernels).getD ((sortedMinors kernels).length - 1) (0, 0)

/-- previous_minor = sorted_minors[-2] if there are at least two minor
versions, else None. -/
def previousMinor (kernels : List KernelVersion) : Option (Nat × Nat) :=
  if 2 ≤ (sortedMinors kernels).length then
    some ((sortedMinors kernels).getD ((sortedMinors kernels).length - 2) (0, 0))
  else none

/-- A call to lock_kernel or unlock_kernel, reified as trace data. -/
inductive KernelAction
  | lock (k : KernelVersion)
  | unlock (k : KernelVersion)
deriving DecidableEq, Repr

/-- Truthiness-and-equality test `running_kernel and kernel == running_kernel`. -/
def isRunningB (running : Option KernelVersion) (k : KernelVersion) : Bool :=
  match running with
  | some r => kvEq k r
  | none => false

/-- The unlock-everything-except-the-running-kernel loop body shared by the
latest-minor and old-minor branches. -/
def unlockAllExceptRunning (running : Option KernelVersion)
    (ks : List KernelVersion) : List KernelAction :=
  (ks.filter (fun k => !(isRunningB running k))).map KernelAction.unlock

/-- Concatenation of the per-element action lists of a loop. -/
def concatMap {α β : Type} (f : α → List β) : List α → List β
  | [] => []
  | a :: l => f a ++ concatMap f l

/-- The body of the `for minor in sorted_minors` loop of manage_kernels, as
the list of lock/unlock calls it performs: the latest minor unlocks all but
the running kernel; the previous minor locks the highest patch
(kernels_in_minor[-1]) and unlocks the others; any older minor unlocks all
but the running kernel. -/
def processMinor (kernels : List KernelVersion) (running : Option KernelVersion)
    (m : Nat × Nat) : List KernelAction :=
  let ks := lookupGroup (group_by_minor_version kernels) m
  if m = latestMinor kernels then
    unlockAllExceptRunning running ks
  else if previousMinor kernels = some m then
    match ks.getLast? with
    | some best =>
      KernelAction.lock best :: (ks.filter (fun k => !(kvEq k best))).map KernelAction.unlock
    | none => []
  else
    unlockAllExceptRunning running ks

/-- The full lock/unlock call trace of the manage loop. -/
def manageActions (kernels : List KernelVersion) (running : Option KernelVersion) :
    List KernelAction :=
  concatMap (processMinor kernels running) (sortedMinors kernels)

/-- Outcome of manage_kernels: either sys.exit with a code, or normal
completion with the trace of lock/unlock calls performed. -/
inductive ManageOutcome
  | exited (code : Nat)
  | completed (actions : List KernelAction)
deriving DecidableEq, Repr

/-- `manage_kernels`: exit 1 when the versionlock plugin is unavailable or
no kernels were found; return doing nothing when fewer than
min_kernel_count kernels are installed; otherwise run the per-minor loop.
The versionlock-availability probe and the running kernel are subprocess
results supplied as inputs; the installed kernel list is passed in as
returned by get_installed_kernels. -/
def manage_kernels (versionlock_ok : Bool) (kernels : List KernelVersion)
    (running : Option KernelVersion) (min_kernel_count : Nat) : ManageOutcome :=
  if versionlock_ok = false then ManageOutcome.exited 1
  else if kernels = [] then ManageOutcome.exited 1
  else if kernels.length < min_kernel_count then ManageOutcome.completed []
  else ManageOutcome.completed (manageActions kernels running)

/-- Python str.strip() over a character list (the whitespace set is the
ASCII one produced by rpm output). -/
def stripChars (cs : List Char) : List Char :=
  ((cs.dropWhile Char.isWhitespace).reverse.dropWhile Char.isWhitespace).reverse

/-- Python str.split("\n") over a character list: split at every newline,
keeping empty pieces (so "".split("\n") is [""]). -/
def splitNl : List Char → List (List Char)
  | [] => [[]]
  | c :: cs =>
    if c = '\n' then [] :: splitNl cs
    else
      match splitNl cs with
      | [] => [[c]]
      | piece :: rest => (c :: piece) :: rest

/-- `get_installed_kernels`: on rpm query failure return the empty list;
otherwise split stdout.strip() into lines, strip each, skip empty lines,
skip lines that fail to parse, and return the parsed kernels sorted. -/
def get_installed_kernels (rpm_ok : Bool) (rpm_stdout : String) : List KernelVersion :=
  if rpm_ok = false then []
  else
    List.insertionSort kvLe
      ((splitNl (stripChars rpm_stdout.data)).filterMap (fun line =>
        let l := stripChars line
        if l = [] then none else (KernelVersion.parse (String.mk l)).toOption))

/-- A concrete installed-kernel list spanning two minor versions, the
example from the script's module docstring. -/
def sampleKernels : List KernelVersion :=
  [⟨"6.16.12-200.fc42.x86_64", 6, 16, 12, "200.fc42.x86_64"⟩,
   ⟨"6.17.4-200.fc42.x86_64", 6, 17, 4, "200.fc42.x86_64"⟩,
   ⟨"6.17.5-200.fc42.x86_64", 6, 17, 5, "200.fc42.x86_64"⟩]

/-- The format named by the parse claim, read literally: three nonempty
digit runs separated by dots, then a hyphen, then any nonempty remainder
(with no restriction on the remainder).  Used to compare the claim's
wording with the regex semantics the code implements. -/
def claimedFormat (s : String) : Bool :=
  let cs := s.data
  let d1 := cs.takeWhile pyIsDigit
  let r1 := cs.dropWhile pyIsDigit
  if d1 = [] then false
  else
    match r1 with
    | '.' :: r2 =>
      let d2 := r2.takeWhile pyIsDigit
      let r3 := r2.dropWhile pyIsDigit
      if d2 = [] then false
      else
        match r3 with
        | '.' :: r4 =>
          let d3 := r4.takeWhile pyIsDigit
          let r5 := r4.dropWhile pyIsDigit
          if d3 = [] then false
          else
            match r5 with
            | '-' :: rest => decide (rest ≠ [])
            | _ => false
        | _ => false
    | _ => false

/-- Project a lock call out of a trace element. -/
def lockedOf (a : KernelAction) : Option KernelVersion :=
  match a with
  | KernelAction.lock k => some k
  | KernelAction.unlock _ => none

/-- The kernels passed to lock_kernel, in call order. -/
def locksOf (acts : List KernelAction) : List KernelVersion :=
  acts.filterMap lockedOf

/-- The lock/unlock calls performed by an outcome (none when it exited). -/
def actionsOf (o : ManageOutcome) : List KernelAction :=
  match o with
  | ManageOutcome.exited _ => []
  | ManageOutcome.completed acts => acts

/-!
Helper lemmas.
-/

theorem dispatchList_skip {α : Type} (e : α) (pre l : List (Entry α))
    (h : ∀ g ∈ pre, g.handler.predicate e = false) :
    dispatchList (pre ++ l) e = dispatchList l e := by
  induction pre with
  | nil => rfl
  | cons g t ih =>
    have hg : g.handler.predicate e = false := h g (by simp)
    simp only [List.cons_append, dispatchList, hg, Bool.false_eq_true, if_false]
    exact ih (fun g' hg' => h g' (by simp [hg']))

theorem probedIdxs_first {α : Type} (e : α) (pre : List (Entry α)) (ent : Entry α)
    (post : List (Entry α)) (hpre : ∀ g ∈ pre, g.handler.predicate e = false)
    (hent : ent.handler.predicate e = true) :
    probedIdxs (pre ++ ent :: post) e = pre.map (fun g => g.regIndex) ++ [ent.regIndex] := by
  induction pre with
  | nil => simp [probedIdxs, hent]
  | cons g t ih =>
    have hg : g.handler.predicate e = false := hpre g (by simp)
    simp only [List.cons_append, probedIdxs, hg, Bool.false_eq_true, if_false, List.map_cons,
      List.cons_append]
    exact congrArg (fun l => g.regIndex :: l) (ih (fun g' hg' => hpre g' (by simp [hg'])))

theorem dispatchList_all_false {α : Type} (e : α) (l : List (Entry α))
    (h : ∀ g ∈ l, g.handler.predicate e = false) :
    dispatchList l e = Decision.allowDefault := by
  have := dispatchList_skip e l [] h
  simpa using this

/-!
Claim theorems.
-/

/-- C3: dispatching against an empty handler list, or against a list in
which every handler's predicate returns false on the event, returns the
allow decision with no reason, no context and no guidance. -/
theorem dispatch_no_match_default {α : Type} (e : α) (d : Dispatcher α)
    (hall : ∀ g ∈ d.entries, g.handler.predicate e = false) :
    (Dispatcher.empty : Dispatcher α).dispatch e = Decision.allowDefault
    ∧ d.dispatch e = Decision.allowDefault := by
  constructor
  · rfl
  · exact dispatchList_all_false e d.entries hall

theorem dispatch_no_match_default_witness :
    (∀ g ∈ (Dispatcher.empty.register ⟨"never", 5, fun _ => false,
        fun _ => Decision.allowDefault⟩ : Dispatcher Nat).entries,
      g.handler.predicate 0 = false)
    ∧ (Dispatcher.empty : Dispatcher Nat).dispatch 0 = Decision.allowDefault
    ∧ (Dispatcher.empty.register ⟨"never", 5, fun _ => false,
        fun _ => Decision.allowDefault⟩ : Dispatcher Nat).dispatch 0 = Decision.allowDefault := by
  exact ⟨by decide, dispatch_no_match_default 0 _ (by decide)⟩

/-- C5: the process boundary fails open - whenever the input does not parse
as JSON it writes the empty payload, does not invoke dispatch and exits
successfully; and the exit status is success on every input. -/
theorem boundary_fail_open {α : Type} (parseInput : String → Option α)
    (d : Dispatcher α) (category : String) (input : String) :
    (parseInput input = none →
      runBoundary parseInput d category input = ⟨[], 0, false⟩)
    ∧ (runBoundary parseInput d category input).exitCode = 0 := by
  constructor
  · intro hbad
    simp [runBoundary, hbad]
  · cases h : parseInput input <;> simp [runBoundary, h]

theorem boundary_fail_open_witness :
    runBoundary (fun _ => (none : Option Nat)) Dispatcher.empty "PreToolUse" "not json"
      = ⟨[], 0, false⟩
    ∧ (runBoundary (fun _ => (none : Option Nat)) Dispatcher.empty "PreToolUse"
        "not json").exitCode = 0 :=
  ⟨(boundary_fail_open (fun _ => none) Dispatcher.empty "PreToolUse" "not json").1 rfl,
    (boundary_fail_open (fun _ => none) Dispatcher.empty "PreToolUse" "not json").2⟩

/-- C4 counterexample: the claimed equivalence (the reason field appears in
the serialized output if and only if the decision value is deny or ask)
fails for a deny decision that carries no reason - the decision is deny but
no reason field is emitted. -/
theorem serialize_reason_iff_counterexample :
    ¬ (hasField (serializeDecision "PreToolUse"
          { decision := DecisionKind.deny, reason := none, context := none,
            guidance := none }) "reason" = true
        ↔ (DecisionKind.deny = DecisionKind.deny ∨ DecisionKind.deny = DecisionKind.ask)) := by
  decide

/-- C4 (amended): an allow decision with no reason, context or guidance
serializes to the empty payload, and the reason field appears in the
serialized output if and only if the decision value is deny or ask AND a
reason is set; in particular a reason set on an allow decision is never
serialized. -/
theorem serialize_reason_asymmetry (category : String) (d : Decision) :
    serializeDecision category Decision.allowDefault = []
    ∧ (hasField (serializeDecision category d) "reason" = true
        ↔ ((d.decision = DecisionKind.deny ∨ d.decision = DecisionKind.ask)
            ∧ d.reason ≠ none)) := by
  constructor
  · rfl
  · rcases d with ⟨k, r, c, g⟩
    cases k <;> cases r <;> cases c <;> cases g <;>
      simp [serializeDecision, hasField]

/-- C7: the restoration action returns the default allow (no context, no
guidance) when no records are persisted, and behaves identically when the
only persisted record is unparsable - no exception escapes. -/
theorem restore_graceful_degradation (parseRecord : String → Option WorkflowState)
    (f : StoredFile) (hcorrupt : parseRecord f.content = none) :
    restoreAction parseRecord [] = Decision.allowDefault
    ∧ restoreAction parseRecord [f] = Decision.allowDefault
    ∧ restoreAction parseRecord [f] = restoreAction parseRecord [] := by
  refine ⟨rfl, ?_, ?_⟩ <;> simp [restoreAction, pickLatest, hcorrupt]

theorem restore_graceful_degradation_witness :
    restoreAction (fun _ => (none : Option WorkflowState)) [] = Decision.allowDefault
    ∧ restoreAction (fun _ => none) [⟨0, "corrupt json"⟩] = Decision.allowDefault
    ∧ restoreAction (fun _ => none) [⟨0, "corrupt json"⟩]
        = restoreAction (fun _ => none) [] :=
  restore_graceful_degradation (fun _ => none) ⟨0, "corrupt json"⟩ rfl

/-- C10: when at least one kernel parses but fewer than min_kernel_count are
installed, manage_kernels returns having performed no lock or unlock call,
leaving the versionlock state unchanged. -/
theorem manage_kernels_min_count_frame (rpm_ok : Bool) (rpm_stdout : String)
    (running : Option KernelVersion) (mc : Nat)
    (hsome : get_installed_kernels rpm_ok rpm_stdout ≠ [])
    (hlt : (get_installed_kernels rpm_ok rpm_stdout).length < mc) :
    manage_kernels true (get_installed_kernels rpm_ok rpm_stdout) running mc
      = ManageOutcome.completed [] := by
  unfold manage_kernels
  rw [if_neg (by decide), if_neg hsome, if_pos hlt]

theorem manage_kernels_min_count_frame_witness :
    get_installed_kernels true "6.17.5-200.fc42.x86_64" ≠ []
    ∧ (get_installed_kernels true "6.17.5-200.fc42.x86_64").length < 2
    ∧ manage_kernels true (get_installed_kernels true "6.17.5-200.fc42.x86_64") none 2
        = ManageOutcome.completed [] :=
  ⟨by decide, by decide,
    manage_kernels_min_count_frame true "6.17.5-200.fc42.x86_64" none 2
      (by decide) (by decide)⟩

theorem lookupRecord_update (store : StateStore) (ns : String) (v : WorkflowState) :
    lookupRecord (store.map (fun p => if p.1 = ns then (p.1, v) else p)) ns
      = (lookupRecord store ns).map (fun _ => v) := by
  induction store with
  | nil => rfl
  | cons p rest ih =>
    by_cases h : p.1 = ns
    · simp [lookupRecord, h]
    · simp [lookupRecord, h, ih]

theorem map_fst_update (store : StateStore) (ns : String) (v : WorkflowState) :
    (store.map (fun p => if p.1 = ns then (p.1, v) else p)).map Prod.fst
      = store.map Prod.fst := by
  induction store with
  | nil => rfl
  | cons p rest ih =>
    by_cases h : p.1 = ns <;> simp [h, ih]

/-- C6: snapshotting a workflow for which a record already exists overwrites
that record in place - the new record keeps the original created_at while
phase, required_reading and key_reminders take the new values - and the
stored namespaces are unchanged, so no second record for the same workflow
is ever created. -/
theorem snapshot_update_in_place (store : StateStore) (w : WorkflowState) (now : Nat)
    (old : WorkflowState)
    (hexist : lookupRecord store (sanitizeWorkflowName w.workflow) = some old) :
    (∃ r, lookupRecord (snapshotPersist store w now) (sanitizeWorkflowName w.workflow)
          = some r
        ∧ r.created_at = old.created_at ∧ r.phase = w.phase
        ∧ r.required_reading = w.required_reading ∧ r.key_reminders = w.key_reminders)
    ∧ (snapshotPersist store w now).map Prod.fst = store.map Prod.fst := by
  have hsnap : snapshotPersist store w now
      = store.map (fun p => if p.1 = sanitizeWorkflowName w.workflow
          then (p.1, { w with created_at := old.created_at }) else p) := by
    simp only [snapshotPersist, hexist]
  constructor
  · refine ⟨{ w with created_at := old.created_at }, ?_, rfl, rfl, rfl, rfl⟩
    rw [hsnap, lookupRecord_update, hexist]
    rfl
  · rw [hsnap]
    exact map_fst_update store (sanitizeWorkflowName w.workflow)
      { w with created_at := old.created_at }

theorem snapshot_update_in_place_witness :
    lookupRecord [("test", sampleOldRecord)] (sanitizeWorkflowName sampleNewState.workflow)
      = some sampleOldRecord
    ∧ ((∃ r, lookupRecord (snapshotPersist [("test", sampleOldRecord)] sampleNewState 555)
          (sanitizeWorkflowName sampleNewState.workflow) = some r
        ∧ r.created_at = sampleOldRecord.created_at ∧ r.phase = sampleNewState.phase
        ∧ r.required_reading = sampleNewState.required_reading
        ∧ r.key_reminders = sampleNewState.key_reminders)
      ∧ (snapshotPersist [("test", sampleOldRecord)] sampleNewState 555).map Prod.fst
          = [("test", sampleOldRecord)].map Prod.fst) :=
  ⟨by decide, snapshot_update_in_place [("test", sampleOldRecord)] sampleNewState 555
    sampleOldRecord (by decide)⟩

/-- C1: first-match-wins dispatch.  In general, when every handler before a
given entry rejects the event and that entry's predicate accepts it,
dispatch returns that entry's action result and evaluates exactly the
predicates up to and including that entry.  In particular, with handler A
(priority 10, predicate always true) and handler B (priority 20, predicate
always true) registered in either order, dispatch returns A's action's
decision and B's predicate is never evaluated. -/
theorem dispatch_first_match_wins {α : Type} (e : α) (nA nB : String)
    (aA aB : α → Decision) (pre post : List (Entry α)) (ent : Entry α)
    (hpre : ∀ g ∈ pre, g.handler.predicate e = false)
    (hent : ent.handler.predicate e = true) :
    (dispatchList (pre ++ ent :: post) e = ent.handler.action e
      ∧ probedIdxs (pre ++ ent :: post) e
          = pre.map (fun g => g.regIndex) ++ [ent.regIndex])
    ∧ (((Dispatcher.empty.register ⟨nA, 10, fun _ => true, aA⟩).register
          ⟨nB, 20, fun _ => true, aB⟩).dispatch e = aA e
      ∧ ((Dispatcher.empty.register ⟨nA, 10, fun _ => true, aA⟩).register
          ⟨nB, 20, fun _ => true, aB⟩).probed e = [0]
      ∧ 1 ∉ ((Dispatcher.empty.register ⟨nA, 10, fun _ => true, aA⟩).register
          ⟨nB, 20, fun _ => true, aB⟩).probed e)
    ∧ (((Dispatcher.empty.register ⟨nB, 20, fun _ => true, aB⟩).register
          ⟨nA, 10, fun _ => true, aA⟩).dispatch e = aA e
      ∧ ((Dispatcher.empty.register ⟨nB, 20, fun _ => true, aB⟩).register
          ⟨nA, 10, fun _ => true, aA⟩).probed e = [1]
      ∧ 0 ∉ ((Dispatcher.empty.register ⟨nB, 20, fun _ => true, aB⟩).register
          ⟨nA, 10, fun _ => true, aA⟩).probed e) := by
  refine ⟨⟨?_, probedIdxs_first e pre ent post hpre hent⟩,
    ⟨rfl, rfl, ?_⟩, rfl, rfl, ?_⟩
  · rw [dispatchList_skip e pre _ hpre]
    simp [dispatchList, hent]
  · exact (by decide : (1 : Nat) ∉ ([0] : List Nat))
  · exact (by decide : (0 : Nat) ∉ ([1] : List Nat))

theorem dispatch_first_match_wins_witness :
    (∀ g ∈ ([sampleFalseEntry] : List (Entry Nat)), g.handler.predicate 7 = false)
    ∧ sampleTrueEntry.handler.predicate 7 = true
    ∧ ((dispatchList ([sampleFalseEntry] ++ sampleTrueEntry :: []) 7
          = sampleTrueEntry.handler.action 7
        ∧ probedIdxs ([sampleFalseEntry] ++ sampleTrueEntry :: []) 7
            = [sampleFalseEntry].map (fun g => g.regIndex) ++ [sampleTrueEntry.regIndex])
      ∧ (((Dispatcher.empty.register ⟨"A", 10, fun _ => true, sampleActA⟩).register
            ⟨"B", 20, fun _ => true, sampleActB⟩).dispatch 7 = sampleActA 7
        ∧ ((Dispatcher.empty.register ⟨"A", 10, fun _ => true, sampleActA⟩).register
            ⟨"B", 20, fun _ => true, sampleActB⟩).probed 7 = [0]
        ∧ 1 ∉ ((Dispatcher.empty.register ⟨"A", 10, fun _ => true, sampleActA⟩).register
            ⟨"B", 20, fun _ => true, sampleActB⟩).probed 7)
      ∧ (((Dispatcher.empty.register ⟨"B", 20, fun _ => true, sampleActB⟩).register
            ⟨"A", 10, fun _ => true, sampleActA⟩).dispatch 7 = sampleActA 7
        ∧ ((Dispatcher.empty.register ⟨"B", 20, fun _ => true, sampleActB⟩).register
            ⟨"A", 10, fun _ => true, sampleActA⟩).probed 7 = [1]
        ∧ 0 ∉ ((Dispatcher.empty.register ⟨"B", 20, fun _ => true, sampleActB⟩).register
            ⟨"A", 10, fun _ => true, sampleActA⟩).probed 7)) :=
  ⟨by decide, rfl,
    dispatch_first_match_wins 7 "A" "B" sampleActA sampleActB
      [sampleFalseEntry] [] sampleTrueEntry (by decide) rfl⟩

theorem keyLeB_antisymm (p q : Int × Nat) (h1 : keyLeB p q = true)
    (h2 : keyLeB q p = true) : p = q := by
  obtain ⟨p1, p2⟩ := p
  obtain ⟨q1, q2⟩ := q
  simp only [keyLeB, Bool.or_eq_true, Bool.and_eq_true, decide_eq_true_eq] at h1 h2
  have h3 : p1 = q1 ∧ p2 = q2 := by omega
  rw [h3.1, h3.2]

theorem sorted_unique_of_nodup_keys {α : Type} :
    ∀ l₁ l₂ : List (Entry α), l₁.Perm l₂ → List.Sorted entryLe l₁ →
      List.Sorted entryLe l₂ → (l₁.map entryKey).Nodup → l₁ = l₂ := by
  intro l₁
  induction l₁ with
  | nil =>
    intro l₂ hp _ _ _
    cases l₂ with
    | nil => rfl
    | cons b t => exact absurd hp.length_eq (by simp)
  | cons a t ih =>
    intro l₂ hp hs₁ hs₂ hnd
    cases l₂ with
    | nil => exact absurd hp.length_eq (by simp)
    | cons b t₂ =>
      have hs₁' := List.sorted_cons.mp hs₁
      have hs₂' := List.sorted_cons.mp hs₂
      have hnd' : (entryKey a :: t.map entryKey).Nodup := by simpa using hnd
      have hndc := List.nodup_cons.mp hnd'
      have hab : a = b := by
        rcases List.mem_cons.mp (hp.symm.subset (List.mem_cons_self b t₂)) with hb | hb
        · exact hb.symm
        · rcases List.mem_cons.mp (hp.subset (List.mem_cons_self a t)) with ha | ha
          · exact ha
          · exfalso
            have h1 : entryLe a b := hs₁'.1 b hb
            have h2 : entryLe b a := hs₂'.1 a ha
            have hkey : entryKey a = entryKey b := keyLeB_antisymm _ _ h1 h2
            have hmem : entryKey a ∈ t.map entryKey := by
              rw [hkey]
              exact List.mem_map_of_mem entryKey hb
            exact hndc.1 hmem
      subst hab
      have ht : t = t₂ := ih t₂ hp.cons_inv hs₁'.2 hs₂'.2 hndc.2
      rw [ht]

theorem registerFold_spec {α : Type} (hs : List (Handler α)) :
    ∀ d : Dispatcher α,
      (hs.foldl Dispatcher.register d).nextIndex = d.nextIndex + hs.length
      ∧ ((hs.foldl Dispatcher.register d).entries.map (fun en => en.regIndex)).Perm
          (d.entries.map (fun en => en.regIndex) ++ List.range' d.nextIndex hs.length) := by
  induction hs with
  | nil => intro d; simp
  | cons h t ih =>
    intro d
    obtain ⟨hn, hperm⟩ := ih (d.register h)
    constructor
    · rw [List.foldl_cons, hn]
      simp only [Dispatcher.register, List.length_cons]
      omega
    · rw [List.foldl_cons]
      have h1 : ((d.register h).entries.map (fun en => en.regIndex)).Perm
          (d.entries.map (fun en => en.regIndex) ++ [d.nextIndex]) := by
        have hp := (List.perm_insertionSort entryLe
          (d.entries ++ [⟨h, d.nextIndex⟩])).map (fun en => en.regIndex)
        simpa [Dispatcher.register] using hp
      have h3 := h1.append_right (List.range' (d.nextIndex + 1) t.length)
      refine hperm.trans (h3.trans ?_)
      rw [List.append_assoc]
      exact List.Perm.refl _

/-- C2: ordering determinism.  After every register call the dispatcher's
handler list is sorted ascending by the two-key order
(priority, registration index); every dispatcher built by registration has
pairwise-distinct keys; and a sorted handler list with distinct keys is
uniquely determined by its contents, so the dispatch order is a function
only of the handlers' (priority, registration_index) values. -/
theorem register_ordering_deterministic {α : Type} (d : Dispatcher α) (h : Handler α)
    (hs : List (Handler α)) (l₁ l₂ : List (Entry α))
    (hperm : l₁.Perm l₂) (hsort₁ : List.Sorted entryLe l₁)
    (hsort₂ : List.Sorted entryLe l₂) (hkeys : (l₁.map entryKey).Nodup) :
    List.Sorted entryLe ((d.register h).entries)
    ∧ ((registerAll hs).entries.map entryKey).Nodup
    ∧ l₁ = l₂ := by
  refine ⟨List.sorted_insertionSort entryLe _, ?_,
    sorted_unique_of_nodup_keys l₁ l₂ hperm hsort₁ hsort₂ hkeys⟩
  have hspec := (registerFold_spec hs (@Dispatcher.empty α)).2
  have hri : ((registerAll hs).entries.map (fun en => en.regIndex)).Nodup := by
    refine hspec.nodup_iff.mpr ?_
    simpa [Dispatcher.empty] using List.nodup_range' 0 hs.length 1 (by omega)
  have hmapmap : (registerAll hs).entries.map (fun en => en.regIndex)
      = ((registerAll hs).entries.map entryKey).map (fun k => k.2) := by
    rw [List.map_map]
    rfl
  rw [hmapmap] at hri
  exact List.Nodup.of_map _ hri

theorem register_ordering_deterministic_witness :
    ([sampleEntryA] : List (Entry Nat)).Perm [sampleEntryA]
    ∧ List.Sorted entryLe [sampleEntryA]
    ∧ (([sampleEntryA] : List (Entry Nat)).map entryKey).Nodup
    ∧ (List.Sorted entryLe (((Dispatcher.empty : Dispatcher Nat).register
          sampleHandler).entries)
      ∧ ((registerAll [sampleHandler, sampleHandler]).entries.map entryKey).Nodup
      ∧ ([sampleEntryA] : List (Entry Nat)) = [sampleEntryA]) :=
  ⟨List.Perm.refl _, by simp, by decide,
    register_ordering_deterministic Dispatcher.empty sampleHandler
      [sampleHandler, sampleHandler] [sampleEntryA] [sampleEntryA]
      (List.Perm.refl _) (by simp) (by simp) (by decide)⟩

theorem lookupGroup_addToGroup (gs : MinorGroups) (key m : Nat × Nat) (k : KernelVersion) :
    lookupGroup (addToGroup gs key k) m
      = lookupGroup gs m ++ (if m = key then [k] else []) := by
  induction gs with
  | nil =>
    by_cases h : m = key
    · subst h
      simp [addToGroup, lookupGroup]
    · simp [addToGroup, lookupGroup, h, Ne.symm h]
  | cons p rest ih =>
    obtain ⟨k0, g⟩ := p
    by_cases h1 : k0 = key
    · subst h1
      by_cases h2 : k0 = m
      · subst h2
        simp [addToGroup, lookupGroup]
      · have h2' : ¬ m = k0 := fun h => h2 h.symm
        simp [addToGroup, lookupGroup, h2, h2']
    · by_cases h2 : k0 = m
      · subst h2
        simp [addToGroup, lookupGroup, h1]
      · simp [addToGroup, lookupGroup, h1, h2, ih]

theorem lookupGroup_foldl (ks : List KernelVersion) :
    ∀ (gs : MinorGroups) (m : Nat × Nat),
      lookupGroup (ks.foldl (fun gs k => addToGroup gs (minorKey k) k) gs) m
        = lookupGroup gs m ++ ks.filter (fun k => decide (minorKey k = m)) := by
  induction ks with
  | nil => intro gs m; simp
  | cons k t ih =>
    intro gs m
    rw [List.foldl_cons, ih, lookupGroup_addToGroup]
    by_cases h : minorKey k = m
    · subst h
      simp [List.filter_cons, List.append_assoc]
    · have h' : ¬ m = minorKey k := fun hh => h hh.symm
      simp [List.filter_cons, h, h']

theorem lookupGroup_rawGroups (kernels : List KernelVersion) (m : Nat × Nat) :
    lookupGroup (rawGroups kernels) m
      = kernels.filter (fun k => decide (minorKey k = m)) := by
  have h := lookupGroup_foldl kernels [] m
  simpa [rawGroups, lookupGroup] using h

theorem lookupGroup_map_sort (gs : MinorGroups) (m : Nat × Nat) :
    lookupGroup (gs.map (fun p => (p.1, List.insertionSort kvLe p.2))) m
      = List.insertionSort kvLe (lookupGroup gs m) := by
  induction gs with
  | nil => simp [lookupGroup]
  | cons p rest ih =>
    by_cases h : p.1 = m <;> simp [lookupGroup, h, ih]

theorem lookupGroup_groups (kernels : List KernelVersion) (m : Nat × Nat) :
    lookupGroup (group_by_minor_version kernels) m
      = List.insertionSort kvLe (kernels.filter (fun k => decide (minorKey k = m))) := by
  rw [group_by_minor_version, lookupGroup_map_sort, lookupGroup_rawGroups]

theorem groupKeys_addToGroup (gs : MinorGroups) (key : Nat × Nat) (k : KernelVersion) :
    groupKeys (addToGroup gs key k)
      = if key ∈ groupKeys gs then groupKeys gs else groupKeys gs ++ [key] := by
  induction gs with
  | nil => simp [addToGroup, groupKeys]
  | cons p rest ih =>
    obtain ⟨k0, g⟩ := p
    by_cases h : k0 = key
    · subst h
      simp [addToGroup, groupKeys]
    · have h' : ¬ key = k0 := fun hh => h hh.symm
      have hkeys : groupKeys (addToGroup ((k0, g) :: rest) key k)
          = k0 :: groupKeys (addToGroup rest key k) := by
        simp [addToGroup, h, groupKeys]
      rw [hkeys, ih]
      have hmemiff : key ∈ groupKeys ((k0, g) :: rest) ↔ key ∈ groupKeys rest := by
        simp [groupKeys, h']
      by_cases h2 : key ∈ groupKeys rest
      · rw [if_pos h2, if_pos (hmemiff.mpr h2)]
        simp [groupKeys]
      · rw [if_neg h2, if_neg (fun hh => h2 (hmemiff.mp hh))]
        simp [groupKeys]

theorem groupKeys_nodup_foldl (ks : List KernelVersion) :
    ∀ gs : MinorGroups, (groupKeys gs).Nodup →
      (groupKeys (ks.foldl (fun gs k => addToGroup gs (minorKey k) k) gs)).Nodup := by
  induction ks with
  | nil => intro gs h; simpa using h
  | cons k t ih =>
    intro gs h
    rw [List.foldl_cons]
    apply ih
    rw [groupKeys_addToGroup]
    by_cases hmem : minorKey k ∈ groupKeys gs
    · simpa [hmem] using h
    · simp [hmem, List.nodup_append, h]

theorem groupKeys_rawGroups_nodup (kernels : List KernelVersion) :
    (groupKeys (rawGroups kernels)).Nodup :=
  groupKeys_nodup_foldl kernels [] (by simp [groupKeys])

theorem groupKeys_group_by (kernels : List KernelVersion) :
    groupKeys (group_by_minor_version kernels) = groupKeys (rawGroups kernels) := by
  unfold group_by_minor_version groupKeys
  induction rawGroups kernels with
  | nil => rfl
  | cons p rest ih => simp [ih]

theorem mem_groupKeys_foldl (ks : List KernelVersion) :
    ∀ (gs : MinorGroups) (m : Nat × Nat),
      m ∈ groupKeys (ks.foldl (fun gs k => addToGroup gs (minorKey k) k) gs) →
      m ∈ groupKeys gs ∨ m ∈ ks.map minorKey := by
  induction ks with
  | nil => intro gs m h; exact Or.inl h
  | cons k t ih =>
    intro gs m h
    rw [List.foldl_cons] at h
    rcases ih _ m h with h1 | h1
    · rw [groupKeys_addToGroup] at h1
      by_cases hmem : minorKey k ∈ groupKeys gs
      · rw [if_pos hmem] at h1
        exact Or.inl h1
      · rw [if_neg hmem] at h1
        rcases List.mem_append.mp h1 with h2 | h2
        · exact Or.inl h2
        · right
          simp at h2
          simp [h2]
    · exact Or.inr (by simp [h1])

theorem filter_ne_nil_of_mem_rawKeys (kernels : List KernelVersion) (m : Nat × Nat)
    (h : m ∈ groupKeys (rawGroups kernels)) :
    kernels.filter (fun k => decide (minorKey k = m)) ≠ [] := by
  rcases mem_groupKeys_foldl kernels [] m (by simpa [rawGroups] using h) with h1 | h1
  · simp [groupKeys] at h1
  · rcases List.mem_map.mp h1 with ⟨k, hk, hkm⟩
    intro hnil
    have : k ∈ kernels.filter (fun k => decide (minorKey k = m)) :=
      List.mem_filter.mpr ⟨hk, by simp [hkm]⟩
    rw [hnil] at this
    simp at this

theorem concatMap_filterMap {β γ δ : Type} (g : γ → Option δ) (f : β → List γ) :
    ∀ l : List β, (concatMap f l).filterMap g = concatMap (fun b => (f b).filterMap g) l := by
  intro l
  induction l with
  | nil => rfl
  | cons a t ih => simp [concatMap, List.filterMap_append, ih]

theorem concatMap_eq_nil {β γ : Type} (f : β → List γ) :
    ∀ l : List β, (∀ b ∈ l, f b = []) → concatMap f l = [] := by
  intro l
  induction l with
  | nil => intro _; rfl
  | cons a t ih =>
    intro h
    simp [concatMap, h a (by simp)]
    exact ih (fun b hb => h b (by simp [hb]))

theorem concatMap_single {β γ : Type} (f : β → List γ) :
    ∀ (l : List β) (a : β), l.Nodup → a ∈ l → (∀ x ∈ l, x ≠ a → f x = []) →
      concatMap f l = f a := by
  intro l
  induction l with
  | nil => intro a _ h; simp at h
  | cons b t ih =>
    intro a hnd hmem hother
    rcases List.mem_cons.mp hmem with rfl | hmem'
    · have htail : concatMap f t = [] := by
        refine concatMap_eq_nil f t (fun x hx => ?_)
        refine hother x (by simp [hx]) (fun hxa => ?_)
        exact (List.nodup_cons.mp hnd).1 (hxa ▸ hx)
      simp [concatMap, htail]
    · have hba : b ≠ a := fun h => (List.nodup_cons.mp hnd).1 (h ▸ hmem')
      have h1 : f b = [] := hother b (by simp) hba
      simp only [concatMap, h1, List.nil_append]
      exact ih a (List.nodup_cons.mp hnd).2 hmem' (fun x hx hxa => hother x (by simp [hx]) hxa)

theorem mem_of_getLast?_eq_some {β : Type} :
    ∀ (l : List β) (b : β), l.getLast? = some b → b ∈ l := by
  intro l
  induction l with
  | nil => intro b h; simp at h
  | cons a t ih =>
    intro b h
    cases t with
    | nil =>
      simp at h
      simp [h]
    | cons c t' =>
      rw [List.getLast?_cons_cons] at h
      exact List.mem_cons_of_mem a (ih b h)

theorem sorted_getLast_max {β : Type} (r : β → β → Prop) :
    ∀ (l : List β) (b : β), List.Sorted r l → l.getLast? = some b →
      ∀ x ∈ l, x = b ∨ r x b := by
  intro l
  induction l with
  | nil => intro b _ h; simp at h
  | cons a t ih =>
    intro b hs hlast x hx
    cases t with
    | nil =>
      simp at hlast
      rcases List.mem_singleton.mp hx with rfl
      exact Or.inl hlast
    | cons c t' =>
      rw [List.getLast?_cons_cons] at hlast
      have hs' := List.sorted_cons.mp hs
      rcases List.mem_cons.mp hx with rfl | hx'
      · exact Or.inr (hs'.1 b (mem_of_getLast?_eq_some _ b hlast))
      · exact ih b hs'.2 hlast x hx'

theorem tripleLeB_refl (t : Nat × Nat × Nat) : tripleLeB t t = true := by
  obtain ⟨a, b, c⟩ := t
  simp [tripleLeB]

theorem locksOf_unlock_map (ks : List KernelVersion) :
    locksOf (ks.map KernelAction.unlock) = [] := by
  induction ks with
  | nil => rfl
  | cons k t ih => simp [locksOf, List.filterMap_cons, lockedOf] at ih ⊢

theorem locksOf_unlockAll (running : Option KernelVersion) (ks : List KernelVersion) :
    locksOf (unlockAllExceptRunning running ks) = [] := by
  unfold unlockAllExceptRunning
  exact locksOf_unlock_map _

theorem locksOf_manageActions (kernels : List KernelVersion)
    (running : Option KernelVersion) :
    ((sortedMinors kernels).length = 1 → locksOf (manageActions kernels running) = [])
    ∧ (2 ≤ (sortedMinors kernels).length →
        ∃ m, locksOf (manageActions kernels running) = [m]
          ∧ m ∈ kernels
          ∧ previousMinor kernels = some (minorKey m)
          ∧ ∀ k ∈ kernels, minorKey k = minorKey m →
              tripleLeB k.triple m.triple = true) := by
  have hlocks : locksOf (manageActions kernels running)
      = concatMap (fun m => locksOf (processMinor kernels running m))
          (sortedMinors kernels) := by
    unfold manageActions locksOf
    exact concatMap_filterMap lockedOf (processMinor kernels running) (sortedMinors kernels)
  have hnodup : (sortedMinors kernels).Nodup := by
    have h1 := groupKeys_rawGroups_nodup kernels
    rw [← groupKeys_group_by] at h1
    exact (List.perm_insertionSort minorLe _).nodup_iff.mpr h1
  have hgroup_ne : ∀ m ∈ sortedMinors kernels,
      lookupGroup (group_by_minor_version kernels) m ≠ [] := by
    intro m hm
    rw [lookupGroup_groups]
    intro hnil
    have hlen := congrArg List.length hnil
    rw [List.length_insertionSort] at hlen
    have hfil := List.eq_nil_of_length_eq_zero hlen
    have hkeys : m ∈ groupKeys (rawGroups kernels) := by
      rw [← groupKeys_group_by]
      exact (List.mem_insertionSort minorLe).mp hm
    exact filter_ne_nil_of_mem_rawKeys kernels m hkeys hfil
  constructor
  · intro h1
    rw [hlocks]
    apply concatMap_eq_nil
    intro m hm
    by_cases hlat : m = latestMinor kernels
    · simp [processMinor, hlat, locksOf_unlockAll]
    · have hprev : previousMinor kernels = none := by
        unfold previousMinor
        rw [if_neg]
        omega
      simp [processMinor, hlat, hprev, locksOf_unlockAll]
  · intro h2
    have hn1 : (sortedMinors kernels).length - 1 < (sortedMinors kernels).length := by omega
    have hn2 : (sortedMinors kernels).length - 2 < (sortedMinors kernels).length := by omega
    have hpack : ∃ pv, previousMinor kernels = some pv ∧ pv ∈ sortedMinors kernels
        ∧ pv ≠ latestMinor kernels := by
      refine ⟨(sortedMinors kernels)[(sortedMinors kernels).length - 2], ?_, ?_, ?_⟩
      · unfold previousMinor
        rw [if_pos h2, List.getD_eq_getElem _ _ hn2]
      · exact List.getElem_mem hn2
      · unfold latestMinor
        rw [List.getD_eq_getElem _ _ hn1]
        intro heq
        have hg : (sortedMinors kernels).get ⟨(sortedMinors kernels).length - 2, hn2⟩
            = (sortedMinors kernels).get ⟨(sortedMinors kernels).length - 1, hn1⟩ := by
          simpa [List.get_eq_getElem] using heq
        have hfin := hnodup.get_inj_iff.mp hg
        have hval : (sortedMinors kernels).length - 2
            = (sortedMinors kernels).length - 1 := congrArg Fin.val hfin
        omega
    obtain ⟨pv, hpv, hpvmem, hpvne⟩ := hpack
    obtain ⟨best, hbest⟩ : ∃ b,
        (lookupGroup (group_by_minor_version kernels) pv).getLast? = some b := by
      cases hcase : (lookupGroup (group_by_minor_version kernels) pv).getLast? with
      | some b => exact ⟨b, rfl⟩
      | none => exact absurd (List.getLast?_eq_none_iff.mp hcase) (hgroup_ne pv hpvmem)
    have hbest_group : best ∈ lookupGroup (group_by_minor_version kernels) pv :=
      mem_of_getLast?_eq_some _ best hbest
    have hbest_filter : best ∈ kernels.filter (fun k => decide (minorKey k = pv)) := by
      rw [lookupGroup_groups] at hbest_group
      exact (List.mem_insertionSort kvLe).mp hbest_group
    have hbest_mem : best ∈ kernels := (List.mem_filter.mp hbest_filter).1
    have hbest_key : minorKey best = pv :=
      of_decide_eq_true (List.mem_filter.mp hbest_filter).2
    have hgprev : locksOf (processMinor kernels running pv) = [best] := by
      unfold processMinor
      rw [if_neg hpvne, if_pos hpv, hbest]
      simp [locksOf, List.filterMap_cons, lockedOf, locksOf_unlock_map]
    have hothers : ∀ m ∈ sortedMinors kernels, m ≠ pv →
        locksOf (processMinor kernels running m) = [] := by
      intro m hm hne
      by_cases hlat : m = latestMinor kernels
      · simp [processMinor, hlat, locksOf_unlockAll]
      · have hnotprev : ¬ previousMinor kernels = some m := by
          rw [hpv]
          intro hh
          injection hh with h3
          exact hne h3.symm
        simp [processMinor, hlat, hnotprev, locksOf_unlockAll]
    refine ⟨best, ?_, hbest_mem, ?_, ?_⟩
    · rw [hlocks,
        concatMap_single (fun m => locksOf (processMinor kernels running m))
          (sortedMinors kernels) pv hnodup hpvmem hothers]
      exact hgprev
    · rw [hpv, hbest_key]
    · intro k hk hkey
      have hk_filter : k ∈ kernels.filter (fun k => decide (minorKey k = pv)) :=
        List.mem_filter.mpr ⟨hk, by simp [hkey, hbest_key]⟩
      have hk_group : k ∈ lookupGroup (group_by_minor_version kernels) pv := by
        rw [lookupGroup_groups]
        exact (List.mem_insertionSort kvLe).mpr hk_filter
      have hsorted : List.Sorted kvLe (lookupGroup (group_by_minor_version kernels) pv) := by
        rw [lookupGroup_groups]
        exact List.sorted_insertionSort kvLe _
      rcases sorted_getLast_max kvLe _ best hsorted hbest k hk_group with rfl | hle
      · exact tripleLeB_refl _
      · exact hle

/-- C8: lock-target selection.  For every installed-kernel list that passes
the minimum-count safety check, manage_kernels calls lock_kernel exactly
once - on a kernel of the second-highest minor version that is maximal in
(major, minor, patch) among the kernels of that minor version - when at
least two distinct minor versions are present, and calls lock_kernel zero
times when all installed kernels share a single minor version. -/
theorem manage_kernels_lock_selection (kernels : List KernelVersion)
    (running : Option KernelVersion) (mc : Nat)
    (hne : kernels ≠ []) (hcount : mc ≤ kernels.length) :
    ∃ acts, manage_kernels true kernels running mc = ManageOutcome.completed acts
      ∧ ((sortedMinors kernels).length = 1 → locksOf acts = [])
      ∧ (2 ≤ (sortedMinors kernels).length →
          ∃ m, locksOf acts = [m]
            ∧ m ∈ kernels
            ∧ previousMinor kernels = some (minorKey m)
            ∧ ∀ k ∈ kernels, minorKey k = minorKey m →
                tripleLeB k.triple m.triple = true) := by
  refine ⟨manageActions kernels running, ?_,
    (locksOf_manageActions kernels running).1,
    (locksOf_manageActions kernels running).2⟩
  unfold manage_kernels
  rw [if_neg (by decide), if_neg hne, if_neg (by omega)]

theorem manage_kernels_lock_selection_witness :
    sampleKernels ≠ []
    ∧ 2 ≤ sampleKernels.length
    ∧ (∃ acts, manage_kernels true sampleKernels none 2 = ManageOutcome.completed acts
        ∧ ((sortedMinors sampleKernels).length = 1 → locksOf acts = [])
        ∧ (2 ≤ (sortedMinors sampleKernels).length →
            ∃ m, locksOf acts = [m]
              ∧ m ∈ sampleKernels
              ∧ previousMinor sampleKernels = some (minorKey m)
              ∧ ∀ k ∈ sampleKernels, minorKey k = minorKey m →
                  tripleLeB k.triple m.triple = true)) :=
  ⟨by decide, by decide,
    manage_kernels_lock_selection sampleKernels none 2 (by decide) (by decide)⟩

theorem takeWhile_dropWhile_unique (p : Char → Bool) :
    ∀ (d r : List Char), (∀ x ∈ d, p x = true) → (∀ x, r.head? = some x → p x = false) →
      (d ++ r).takeWhile p = d ∧ (d ++ r).dropWhile p = r := by
  intro d
  induction d with
  | nil =>
    intro r _ hr
    cases r with
    | nil => exact ⟨rfl, rfl⟩
    | cons x r' =>
      have hx : p x = false := hr x rfl
      constructor
      · simp [List.takeWhile_cons, hx]
      · simp [List.dropWhile_cons, hx]
  | cons c d' ih =>
    intro r hd hr
    have hc : p c = true := hd c (by simp)
    have hih := ih r (fun x hx => hd x (by simp [hx])) hr
    constructor
    · simp [List.takeWhile_cons, hc, hih.1]
    · simp [List.dropWhile_cons, hc, hih.2]

theorem eq_cons_of_head?_eq_some {x : Char} (l : List Char) (h : l.head? = some x) :
    l = x :: l.tail := by
  cases l with
  | nil => simp at h
  | cons a t =>
    simp at h
    rw [h]
    rfl

theorem matchRest_eq_some_iff (rest rel : List Char) :
    matchRest rest = some rel ↔
      rel ≠ [] ∧ (∀ x ∈ rel, ¬ x = '\n') ∧ (rest = rel ∨ rest = rel ++ ['\n']) := by
  constructor
  · intro h
    simp only [matchRest] at h
    by_cases hb : rest.takeWhile (fun c => c != '\n') = []
    · simp [hb] at h
    rw [if_neg hb] at h
    by_cases ha : rest.dropWhile (fun c => c != '\n') = []
    · rw [if_pos ha] at h
      injection h with h1
      subst h1
      refine ⟨hb, ?_, Or.inl ?_⟩
      · intro x hx
        have := List.mem_takeWhile_imp hx
        simpa [bne_iff_ne] using this
      · have := List.takeWhile_append_dropWhile (fun c => c != '\n') rest
        rw [ha, List.append_nil] at this
        exact this.symm
    rw [if_neg ha] at h
    by_cases ha2 : rest.dropWhile (fun c => c != '\n') = ['\n']
    · rw [if_pos ha2] at h
      injection h with h1
      subst h1
      refine ⟨hb, ?_, Or.inr ?_⟩
      · intro x hx
        have := List.mem_takeWhile_imp hx
        simpa [bne_iff_ne] using this
      · have := List.takeWhile_append_dropWhile (fun c => c != '\n') rest
        rw [ha2] at this
        exact this.symm
    · rw [if_neg ha2] at h
      exact absurd h (by simp)
  · rintro ⟨hne, hnl, hcase | hcase⟩
    · rw [hcase]
      have hmem : ∀ x ∈ rel, ((fun c => c != '\n') x) = true := by
        intro x hx
        simpa [bne_iff_ne] using hnl x hx
      have ht := takeWhile_dropWhile_unique (fun c => c != '\n') rel []
        hmem (by intro x hx; simp at hx)
      rw [List.append_nil] at ht
      simp [matchRest, ht.1, ht.2, hne]
    · rw [hcase]
      have hmem : ∀ x ∈ rel, ((fun c => c != '\n') x) = true := by
        intro x hx
        simpa [bne_iff_ne] using hnl x hx
      have hhead : ∀ x, (['\n'] : List Char).head? = some x →
          ((fun c => c != '\n') x) = false := by
        intro x hx
        simp at hx
        subst hx
        decide
      have ht := takeWhile_dropWhile_unique (fun c => c != '\n') rel ['\n'] hmem hhead
      simp [matchRest, ht.1, ht.2, hne]

theorem parseChars_eq_some_iff (cs : List Char) (q : Nat × Nat × Nat × List Char) :
    parseChars cs = some q ↔
      ∃ d1 d2 d3 rem rel, cs = d1 ++ '.' :: (d2 ++ '.' :: (d3 ++ '-' :: rem))
        ∧ d1 ≠ [] ∧ d2 ≠ [] ∧ d3 ≠ []
        ∧ (∀ x ∈ d1, pyIsDigit x = true) ∧ (∀ x ∈ d2, pyIsDigit x = true)
        ∧ (∀ x ∈ d3, pyIsDigit x = true)
        ∧ matchRest rem = some rel
        ∧ q = (digitsVal d1, digitsVal d2, digitsVal d3, rel) := by
  constructor
  · intro h
    simp only [parseChars] at h
    set d1 := cs.takeWhile pyIsDigit with hd1def
    set r1 := cs.dropWhile pyIsDigit with hr1def
    set d2 := r1.tail.takeWhile pyIsDigit with hd2def
    set r3 := r1.tail.dropWhile pyIsDigit with hr3def
    set d3 := r3.tail.takeWhile pyIsDigit with hd3def
    set r5 := r3.tail.dropWhile pyIsDigit with hr5def
    by_cases h1 : d1 = []
    case pos => simp [h1] at h
    rw [if_neg h1] at h
    by_cases h2 : r1.head? = some '.'
    case neg =>
      rw [if_pos h2] at h
      exact absurd h (by simp)
    rw [if_neg (not_not_intro h2)] at h
    by_cases h3 : d2 = []
    case pos =>
      rw [if_pos h3] at h
      exact absurd h (by simp)
    rw [if_neg h3] at h
    by_cases h4 : r3.head? = some '.'
    case neg =>
      rw [if_pos h4] at h
      exact absurd h (by simp)
    rw [if_neg (not_not_intro h4)] at h
    by_cases h5 : d3 = []
    case pos =>
      rw [if_pos h5] at h
      exact absurd h (by simp)
    rw [if_neg h5] at h
    by_cases h6 : r5.head? = some '-'
    case neg =>
      rw [if_pos h6] at h
      exact absurd h (by simp)
    rw [if_neg (not_not_intro h6)] at h
    rcases Option.map_eq_some'.mp h with ⟨rel, hrel, hq⟩
    refine ⟨d1, d2, d3, r5.tail, rel, ?_, h1, h3, h5, ?_, ?_, ?_, hrel, hq.symm⟩
    · have e1 : d1 ++ r1 = cs := List.takeWhile_append_dropWhile pyIsDigit cs
      have e2 : r1 = '.' :: r1.tail := eq_cons_of_head?_eq_some r1 h2
      have e3 : d2 ++ r3 = r1.tail := List.takeWhile_append_dropWhile pyIsDigit r1.tail
      have e4 : r3 = '.' :: r3.tail := eq_cons_of_head?_eq_some r3 h4
      have e5 : d3 ++ r5 = r3.tail := List.takeWhile_append_dropWhile pyIsDigit r3.tail
      have e6 : r5 = '-' :: r5.tail := eq_cons_of_head?_eq_some r5 h6
      calc cs = d1 ++ r1 := e1.symm
        _ = d1 ++ '.' :: r1.tail := congrArg (fun t => d1 ++ t) e2
        _ = d1 ++ '.' :: (d2 ++ r3) := congrArg (fun t => d1 ++ '.' :: t) e3.symm
        _ = d1 ++ '.' :: (d2 ++ '.' :: r3.tail) :=
            congrArg (fun t => d1 ++ '.' :: (d2 ++ t)) e4
        _ = d1 ++ '.' :: (d2 ++ '.' :: (d3 ++ r5)) :=
            congrArg (fun t => d1 ++ '.' :: (d2 ++ '.' :: t)) e5.symm
        _ = d1 ++ '.' :: (d2 ++ '.' :: (d3 ++ '-' :: r5.tail)) :=
            congrArg (fun t => d1 ++ '.' :: (d2 ++ '.' :: (d3 ++ t))) e6
    · intro x hx
      rw [hd1def] at hx
      exact List.mem_takeWhile_imp hx
    · intro x hx
      rw [hd2def] at hx
      exact List.mem_takeWhile_imp hx
    · intro x hx
      rw [hd3def] at hx
      exact List.mem_takeWhile_imp hx
  · rintro ⟨d1, d2, d3, rem, rel, hcs, h1, h3, h5, hm1, hm2, hm3, hrel, hq⟩
    subst hq
    subst hcs
    have hdotdigit : ∀ (l : List Char) (x : Char),
        ('.' :: l).head? = some x → pyIsDigit x = false := by
      intro l x hx
      rw [List.head?_cons] at hx
      injection hx with hx2
      rw [← hx2]
      decide
    have hdashdigit : ∀ (l : List Char) (x : Char),
        ('-' :: l).head? = some x → pyIsDigit x = false := by
      intro l x hx
      rw [List.head?_cons] at hx
      injection hx with hx2
      rw [← hx2]
      decide
    have hd1 := takeWhile_dropWhile_unique pyIsDigit d1
      ('.' :: (d2 ++ '.' :: (d3 ++ '-' :: rem))) hm1 (hdotdigit _)
    have hd2 := takeWhile_dropWhile_unique pyIsDigit d2
      ('.' :: (d3 ++ '-' :: rem)) hm2 (hdotdigit _)
    have hd3 := takeWhile_dropWhile_unique pyIsDigit d3
      ('-' :: rem) hm3 (hdashdigit _)
    simp only [parseChars, hd1.1, hd1.2, List.tail_cons, hd2.1, hd2.2, hd3.1, hd3.2]
    rw [if_neg h1, if_neg (not_not_intro (by simp)), if_neg h3,
      if_neg (not_not_intro (by simp)), if_neg h5, if_neg (not_not_intro (by simp)),
      hrel]
    rfl

/-- A non-ASCII success case of the source: Arabic-Indic digits are matched
by \d and converted by int(), so parse accepts them. -/
theorem kernel_parse_on_unicode_digits :
    (KernelVersion.parse "٣.٣.٣-x").toOption
      = some ⟨"٣.٣.٣-x", 3, 3, 3, "x"⟩ := by
  decide

/-- C9 counterexample: the string "1.2.3-a\nb" has the claimed form (three
digit runs, dots, hyphen, nonempty remainder) yet KernelVersion.parse
raises; and on "1.2.3-a\n" parse succeeds but its release is "a", not the
full remainder "a\n" after the hyphen. -/
theorem kernel_parse_claim_counterexample :
    claimedFormat "1.2.3-a\nb" = true
    ∧ (KernelVersion.parse "1.2.3-a\nb").toOption = none
    ∧ (KernelVersion.parse "1.2.3-a\n").toOption
        = some ⟨"1.2.3-a\n", 1, 2, 3, "a"⟩
    ∧ ("a" : String) ≠ "a\n" :=
  ⟨by decide, by decide, by decide, by decide⟩

/-- C9 (amended): KernelVersion.parse succeeds exactly on strings of the
form digits.digits.digits-REM where each digit run is a nonempty run of
Unicode decimal digits (what the str-pattern \d matches, category Nd) and
REM is a nonempty newline-free remainder optionally followed by one final
newline (the Python re.match semantics of the pattern, whose dot does not
match a newline and whose anchor also matches just before one trailing
newline); on success major/minor/patch are the decimal values of the digit
runs, release is REM without the optional trailing newline, and
full_version is the entire input string; on any other string it raises
ValueError (modelled as Except.error) and constructs no value. -/
theorem kernel_parse_characterization (s : String) (v : KernelVersion) :
    (KernelVersion.parse s = Except.ok v ↔
      ∃ d1 d2 d3 rel nl,
        s.data = d1 ++ '.' :: (d2 ++ '.' :: (d3 ++ '-' :: (rel ++ nl)))
        ∧ d1 ≠ [] ∧ d2 ≠ [] ∧ d3 ≠ []
        ∧ (∀ x ∈ d1, pyIsDigit x = true) ∧ (∀ x ∈ d2, pyIsDigit x = true)
        ∧ (∀ x ∈ d3, pyIsDigit x = true)
        ∧ rel ≠ [] ∧ (∀ x ∈ rel, ¬ x = '\n') ∧ (nl = [] ∨ nl = ['\n'])
        ∧ v = ⟨s, digitsVal d1, digitsVal d2, digitsVal d3, String.mk rel⟩)
    ∧ ((∃ w, KernelVersion.parse s = Except.ok w)
        ∨ KernelVersion.parse s = Except.error ("Invalid kernel version format: " ++ s)) := by
  constructor
  · constructor
    · intro h
      cases hp : parseChars s.data with
      | none =>
        unfold KernelVersion.parse at h
        rw [hp] at h
        exact absurd h (by simp)
      | some qq =>
        obtain ⟨a, b, c, rel'⟩ := qq
        unfold KernelVersion.parse at h
        rw [hp] at h
        have hv : v = ⟨s, a, b, c, String.mk rel'⟩ := by
          injection h with h2
          exact h2.symm
        rcases (parseChars_eq_some_iff s.data (a, b, c, rel')).mp hp with
          ⟨d1, d2, d3, rem, rel, hcs, h1, h3, h5, hm1, hm2, hm3, hrel, hq⟩
        have hqc : a = digitsVal d1 ∧ b = digitsVal d2 ∧ c = digitsVal d3 ∧ rel' = rel := by
          simpa [Prod.ext_iff] using hq
        rcases (matchRest_eq_some_iff rem rel).mp hrel with ⟨hrelne, hrelnl, hremcase⟩
        rcases hremcase with hrem | hrem
        · refine ⟨d1, d2, d3, rel, [], ?_, h1, h3, h5, hm1, hm2, hm3, hrelne, hrelnl,
            Or.inl rfl, ?_⟩
          · rw [hcs, hrem]
            simp
          · rw [hv, hqc.1, hqc.2.1, hqc.2.2.1, hqc.2.2.2]
        · refine ⟨d1, d2, d3, rel, ['\n'], ?_, h1, h3, h5, hm1, hm2, hm3, hrelne, hrelnl,
            Or.inr rfl, ?_⟩
          · rw [hcs, hrem]
          · rw [hv, hqc.1, hqc.2.1, hqc.2.2.1, hqc.2.2.2]
    · rintro ⟨d1, d2, d3, rel, nl, hcs, h1, h3, h5, hm1, hm2, hm3, hrelne, hrelnl, hnl, hv⟩
      have hmr : matchRest (rel ++ nl) = some rel := by
        refine (matchRest_eq_some_iff _ _).mpr ⟨hrelne, hrelnl, ?_⟩
        rcases hnl with rfl | rfl
        · exact Or.inl (by simp)
        · exact Or.inr rfl
      have hp : parseChars s.data
          = some (digitsVal d1, digitsVal d2, digitsVal d3, rel) :=
        (parseChars_eq_some_iff _ _).mpr
          ⟨d1, d2, d3, rel ++ nl, rel, hcs, h1, h3, h5, hm1, hm2, hm3, hmr, rfl⟩
      unfold KernelVersion.parse
      rw [hp, hv]
  · cases hp : parseChars s.data with
    | none =>
      right
      unfold KernelVersion.parse
      rw [hp]
    | some qq =>
      left
      obtain ⟨a, b, c, rel⟩ := qq
      refine ⟨⟨s, a, b, c, String.mk rel⟩, ?_⟩
      unfold KernelVersion.parse
      rw [hp]
